import Mathlib

set_option maxHeartbeats 1000000

/-!
Verification of the `IndexedGraph` ordered multimap from `src/lib.rs`.

The container keeps two parallel insertion-ordered sequences `keys` and
`values`, an auxiliary index `i` mapping each key to the list of positions at
which it occurs, and an independent single-edge adjacency map `edges`.  The
Rust `BTreeMap` is modelled by an association list: the program only ever
looks entries up by key (`get`, `get_mut`, `insert`, `remove`, `len`), never
iterates the map in key order, so the tree layout is unobservable and the
association-list model is faithful for every operation used here.  Machine
`usize` values are modelled by `Nat` (no arithmetic in the program can
overflow before memory is exhausted); `Vec` indexing is modelled fallibly,
with `none` standing for the out-of-bounds panic.
-/

variable {K V : Type}

/-- Model of `BTreeMap::get`: look the key up in the association list. -/
def mapFind {α : Type} [DecidableEq K] : List (K × α) → K → Option α
  | [], _ => none
  | (k', a) :: rest, k => if k' = k then some a else mapFind rest k

/-- Model of `BTreeMap::remove`: drop the entry carrying the given key. -/
def mapRemove {α : Type} [DecidableEq K] : List (K × α) → K → List (K × α)
  | [], _ => []
  | (k', a) :: rest, k => if k' = k then rest else (k', a) :: mapRemove rest k

/-- Model of `BTreeMap::insert`: replace the value stored at the key (keeping
the stored key), or append a fresh entry. -/
def mapInsertR {α : Type} [DecidableEq K] : List (K × α) → K → α → List (K × α)
  | [], k, a => [(k, a)]
  | (k', b) :: rest, k, a =>
    if k' = k then (k', a) :: rest else (k', b) :: mapInsertR rest k a

/-- The index update performed by `IndexedGraph::insert`: push position `n`
onto the key's existing position list (`get_mut` + `push`), or insert a fresh
singleton list `vec![n]`. -/
def idxAppend [DecidableEq K] : List (K × List Nat) → K → Nat → List (K × List Nat)
  | [], k, n => [(k, [n])]
  | (k', ps) :: rest, k, n =>
    if k' = k then (k', ps ++ [n]) :: rest else (k', ps) :: idxAppend rest k n

/-- The loop inside `IndexedGraph::get`: read `values[*idx]` for each recorded
position, in order; `none` models the out-of-bounds panic. -/
def readVals (vs : List V) : List Nat → Option (List V)
  | [] => some []
  | p :: rest =>
    match vs[p]? with
    | none => none
    | some v => Option.map (fun ws => v :: ws) (readVals vs rest)

/-- The container state of `IndexedGraph<K, V>`: parallel sequences `keys` and
`values`, the single-edge map `edges`, and the key-to-positions index `i`. -/
structure IndexedGraph (K V : Type) where
  keys : List K
  values : List V
  edges : List (K × K)
  i : List (K × List Nat)
deriving DecidableEq

/-- `IndexedGraph::new`: the empty container. -/
def IndexedGraph.new : IndexedGraph K V := ⟨[], [], [], []⟩

/-- `IndexedGraph::clear`: `*self = IndexedGraph::new()`. -/
def IndexedGraph.clear (_g : IndexedGraph K V) : IndexedGraph K V := IndexedGraph.new

/-- `IndexedGraph::get`: collect `values[*idx]` over the key's recorded
positions, or the empty vector when the key is absent from the index.
`none` models the indexing panic. -/
def IndexedGraph.get [DecidableEq K] (g : IndexedGraph K V) (k : K) : Option (List V) :=
  match mapFind g.i k with
  | none => some []
  | some idxs => readVals g.values idxs

/-- `IndexedGraph::insert` (state effect): record position `values.len()` in
the index, then push the value and the key onto the parallel sequences. -/
def IndexedGraph.insert [DecidableEq K] (g : IndexedGraph K V) (k : K) (v : V) :
    IndexedGraph K V :=
  ⟨g.keys ++ [k], g.values ++ [v], g.edges, idxAppend g.i k g.values.length⟩

/-- `IndexedGraph::insert` (return value): `self.values.last()` after the
pushes. -/
def IndexedGraph.insert_ret [DecidableEq K] (g : IndexedGraph K V) (k : K) (v : V) :
    Option V :=
  (g.insert k v).values.getLast?

/-- `IndexedGraph::insert_edge` (state effect): `self.edges.insert(from, to)`,
overwriting any previous target of `from`. -/
def IndexedGraph.insert_edge [DecidableEq K] (g : IndexedGraph K V) (a b : K) :
    IndexedGraph K V :=
  ⟨g.keys, g.values, mapInsertR g.edges a b, g.i⟩

/-- `IndexedGraph::pop_first`: `None` when `keys` is empty; otherwise remove
`keys[0]` and `values[0]` and call `self.i.remove(&key)`.  The outer `none`
models the panic of `values.remove(0)` on an empty `values` vector. -/
def IndexedGraph.pop_first [DecidableEq K] (g : IndexedGraph K V) :
    Option (Option (K × V) × IndexedGraph K V) :=
  match g.keys, g.values with
  | [], _ => some (none, g)
  | k :: kr, v :: vr => some (some (k, v), ⟨kr, vr, g.edges, mapRemove g.i k⟩)
  | _ :: _, [] => none

/-- `IndexedGraph::pop_last`: `None` when `keys` is empty; otherwise pop the
last key and value and call `self.i.remove(&key)`.  The outer `none` models
the panic of `self.values.pop().unwrap()` on an empty `values` vector. -/
def IndexedGraph.pop_last [DecidableEq K] (g : IndexedGraph K V) :
    Option (Option (K × V) × IndexedGraph K V) :=
  match g.keys.getLast?, g.values.getLast? with
  | none, _ => some (none, g)
  | some k, some v =>
    some (some (k, v), ⟨g.keys.dropLast, g.values.dropLast, g.edges, mapRemove g.i k⟩)
  | some _, none => none

/-- `IndexedGraph::len`: `self.i.len()`, the number of entries of the index. -/
def IndexedGraph.len (g : IndexedGraph K V) : Nat := g.i.length

/-- `IndexedGraph::is_empty`: `self.i.len() == 0`. -/
def IndexedGraph.is_empty (g : IndexedGraph K V) : Bool := g.i.length == 0

/-- The `Iter` cursor: a reference to the container plus the remaining
length. -/
structure Iter (K V : Type) where
  graph : IndexedGraph K V
  length : Nat

/-- `IndexedGraph::iter`: start with `length: self.len()`. -/
def IndexedGraph.iter (g : IndexedGraph K V) : Iter K V := ⟨g, g.len⟩

/-- `Iterator::next` for `Iter`: when `length` is nonzero, decrement it and
read the entry at `graph.len() - 1 - length`.  The outer `none` models the
panics (subtraction underflow or out-of-bounds indexing). -/
def Iter.next (it : Iter K V) : Option (Option (K × V) × Iter K V) :=
  if it.length = 0 then some (none, it)
  else if it.graph.len < it.length then none
  else
    match it.graph.keys[it.graph.len - 1 - (it.length - 1)]?,
        it.graph.values[it.graph.len - 1 - (it.length - 1)]? with
    | some k, some v => some (some (k, v), ⟨it.graph, it.length - 1⟩)
    | _, _ => none

/-- `DoubleEndedIterator::next_back` for `Iter`: when `length` is nonzero,
decrement it and read the entry at the decremented `length`.  The outer
`none` models the out-of-bounds indexing panic. -/
def Iter.next_back (it : Iter K V) : Option (Option (K × V) × Iter K V) :=
  if it.length = 0 then some (none, it)
  else
    match it.graph.keys[it.length - 1]?, it.graph.values[it.length - 1]? with
    | some k, some v => some (some (k, v), ⟨it.graph, it.length - 1⟩)
    | _, _ => none

/-- Drive an iterator forward up to `fuel` steps, collecting the yielded
pairs; stops at the first exhausted step, propagates a panic as `none`. -/
def stepsForward : Nat → Iter K V → Option (List (K × V))
  | 0, _ => some []
  | fuel + 1, it =>
    match it.next with
    | none => none
    | some (none, _) => some []
    | some (some kv, it') => Option.map (fun rest => kv :: rest) (stepsForward fuel it')

/-- Drive an iterator backward up to `fuel` steps, collecting the yielded
pairs; stops at the first exhausted step, propagates a panic as `none`. -/
def stepsBackward : Nat → Iter K V → Option (List (K × V))
  | 0, _ => some []
  | fuel + 1, it =>
    match it.next_back with
    | none => none
    | some (none, _) => some []
    | some (some kv, it') => Option.map (fun rest => kv :: rest) (stepsBackward fuel it')

/-- Collect an iterator by repeated forward steps until exhaustion. -/
def collectForward (it : Iter K V) : Option (List (K × V)) :=
  stepsForward (it.length + 1) it

/-- Collect an iterator by repeated backward steps until exhaustion. -/
def collectBackward (it : Iter K V) : Option (List (K × V)) :=
  stepsBackward (it.length + 1) it

/-- Apply a list of `insert` calls in order. -/
def insertAll [DecidableEq K] : IndexedGraph K V → List (K × V) → IndexedGraph K V
  | g, [] => g
  | g, (k, v) :: rest => insertAll (g.insert k v) rest

/-- Call `pop_first` up to `n` times, collecting the returned entries; stops
when `pop_first` returns `None`, propagates a panic as `none`. -/
def popFirstN [DecidableEq K] :
    Nat → IndexedGraph K V → Option (List (K × V) × IndexedGraph K V)
  | 0, g => some ([], g)
  | n + 1, g =>
    match g.pop_first with
    | none => none
    | some (none, g') => some ([], g')
    | some (some kv, g') => Option.map (fun pr => (kv :: pr.1, pr.2)) (popFirstN n g')

/-- Call `pop_last` up to `n` times, collecting the returned entries; stops
when `pop_last` returns `None`, propagates a panic as `none`. -/
def popLastN [DecidableEq K] :
    Nat → IndexedGraph K V → Option (List (K × V) × IndexedGraph K V)
  | 0, g => some ([], g)
  | n + 1, g =>
    match g.pop_last with
    | none => none
    | some (none, g') => some ([], g')
    | some (some kv, g') => Option.map (fun pr => (kv :: pr.1, pr.2)) (popLastN n g')

/-- The states reachable from the empty container by the public mutating
operations.  A `pop` transition exists only when the call returns normally
(the source panics otherwise, which has no successor state). -/
inductive Reachable [DecidableEq K] : IndexedGraph K V → Prop where
  | new : Reachable IndexedGraph.new
  | insert {g : IndexedGraph K V} (k : K) (v : V) :
      Reachable g → Reachable (g.insert k v)
  | insert_edge {g : IndexedGraph K V} (a b : K) :
      Reachable g → Reachable (g.insert_edge a b)
  | clear {g : IndexedGraph K V} : Reachable g → Reachable g.clear
  | pop_first {g g' : IndexedGraph K V} {r : Option (K × V)} :
      Reachable g → g.pop_first = some (r, g') → Reachable g'
  | pop_last {g g' : IndexedGraph K V} {r : Option (K × V)} :
      Reachable g → g.pop_last = some (r, g') → Reachable g'

/-- Structural well-formedness: parallel sequences have equal length, the
index keys are pairwise distinct, and every indexed key still occurs in
`keys`. -/
def WF (g : IndexedGraph K V) : Prop :=
  g.keys.length = g.values.length ∧
    (g.i.map Prod.fst).Nodup ∧
    ∀ k, k ∈ g.i.map Prod.fst → k ∈ g.keys

/-- The values recorded under key `k` by a list of inserts, in order. -/
def valsFor [DecidableEq K] (l : List (K × V)) (k : K) : List V :=
  (l.filter (fun p => decide (p.1 = k))).map Prod.snd

/-- Boolean list membership (used to state bounds claims decidably). -/
def memB [DecidableEq K] (k : K) : List K → Bool
  | [] => false
  | k' :: rest => k = k' || memB k rest

/-- Concatenation of a list of position lists. -/
def concatAll : List (List Nat) → List Nat
  | [] => []
  | ps :: rest => ps ++ concatAll rest

/-- All positions stored in the index, concatenated. -/
def allPositions (g : IndexedGraph K V) : List Nat :=
  concatAll (g.i.map Prod.snd)

/-- The partition invariant claimed by the spec: the concatenated position
lists are, up to order, exactly `0 .. N-1` for `N` the current number of
entries. -/
def partitionInv (g : IndexedGraph K V) : Prop :=
  List.Perm (allPositions g) (List.range g.keys.length)

/-! Basic facts about the association-list model of `BTreeMap`. -/

theorem mapFind_idxAppend [DecidableEq K] (m : List (K × List Nat)) (k0 k : K) (n : Nat) :
    mapFind (idxAppend m k0 n) k =
      if k0 = k then some ((mapFind m k).getD [] ++ [n]) else mapFind m k := by
  induction m with
  | nil =>
    by_cases h : k0 = k <;> simp [idxAppend, mapFind, h]
  | cons e rest ih =>
    obtain ⟨k', ps⟩ := e
    by_cases h1 : k' = k0
    · subst h1
      by_cases h2 : k' = k <;> simp [idxAppend, mapFind, h2]
    · by_cases h2 : k' = k
      · subst h2
        have hne : ¬ k0 = k' := fun h => h1 h.symm
        simp [idxAppend, mapFind, h1, hne]
      · simp [idxAppend, mapFind, h1, h2, ih]

theorem idxAppend_of_find_none [DecidableEq K] {m : List (K × List Nat)} {k : K} (n : Nat)
    (h : mapFind m k = none) : idxAppend m k n = m ++ [(k, [n])] := by
  induction m with
  | nil => simp [idxAppend]
  | cons e rest ih =>
    obtain ⟨k', ps⟩ := e
    by_cases h1 : k' = k
    · simp [mapFind, h1] at h
    · simp [mapFind, h1] at h
      simp [idxAppend, h1, ih h]

theorem map_fst_idxAppend_of_find_some [DecidableEq K] {m : List (K × List Nat)} {k : K}
    {ps : List Nat} (n : Nat) (h : mapFind m k = some ps) :
    (idxAppend m k n).map Prod.fst = m.map Prod.fst := by
  induction m with
  | nil => simp [mapFind] at h
  | cons e rest ih =>
    obtain ⟨k', qs⟩ := e
    by_cases h1 : k' = k
    · simp [idxAppend, h1]
    · simp [mapFind, h1] at h
      simp [idxAppend, h1, ih h]

theorem mapRemove_sublist [DecidableEq K] {α : Type} (m : List (K × α)) (k : K) :
    List.Sublist (mapRemove m k) m := by
  induction m with
  | nil => simp [mapRemove]
  | cons e rest ih =>
    obtain ⟨k', a⟩ := e
    by_cases h1 : k' = k
    · subst h1
      simp only [mapRemove, if_pos rfl]
      exact List.sublist_cons_self (k', a) rest
    · simpa [mapRemove, h1] using List.Sublist.cons₂ (k', a) ih

theorem mapFind_eq_none_of_not_mem [DecidableEq K] {α : Type} {m : List (K × α)} {k : K}
    (h : k ∉ m.map Prod.fst) : mapFind m k = none := by
  induction m with
  | nil => simp [mapFind]
  | cons e rest ih =>
    obtain ⟨k', a⟩ := e
    simp only [List.map_cons, List.mem_cons] at h
    push_neg at h
    have hne : ¬ k' = k := fun hh => h.1 hh.symm
    simp [mapFind, hne, ih h.2]

theorem not_mem_map_fst_mapRemove [DecidableEq K] {α : Type} {m : List (K × α)} {k : K}
    (h : (m.map Prod.fst).Nodup) : k ∉ (mapRemove m k).map Prod.fst := by
  induction m with
  | nil => simp [mapRemove]
  | cons e rest ih =>
    obtain ⟨k', a⟩ := e
    simp only [List.map_cons, List.nodup_cons] at h
    by_cases h1 : k' = k
    · subst h1
      intro hmem
      exact h.1 (by simpa [mapRemove] using hmem)
    · intro hmem
      simp only [mapRemove, h1, if_false, List.map_cons, List.mem_cons] at hmem
      rcases hmem with hmem | hmem
      · exact h1 hmem.symm
      · exact ih h.2 hmem

theorem mapFind_mapRemove_self [DecidableEq K] {α : Type} {m : List (K × α)} {k : K}
    (h : (m.map Prod.fst).Nodup) : mapFind (mapRemove m k) k = none :=
  mapFind_eq_none_of_not_mem (not_mem_map_fst_mapRemove h)

theorem mapFind_mapRemove_ne [DecidableEq K] {α : Type} (m : List (K × α)) {k k2 : K}
    (h : k2 ≠ k) : mapFind (mapRemove m k) k2 = mapFind m k2 := by
  induction m with
  | nil => simp [mapRemove]
  | cons e rest ih =>
    obtain ⟨k', a⟩ := e
    by_cases h1 : k' = k
    · subst h1
      have hne : ¬ k' = k2 := fun hh => h (hh.symm)
      simp [mapRemove, mapFind, hne]
    · by_cases h2 : k' = k2
      · subst h2
        simp [mapRemove, mapFind, h1]
      · simp [mapRemove, mapFind, h1, h2, ih]

theorem not_mem_of_mapFind_eq_none [DecidableEq K] {α : Type} {m : List (K × α)} {k : K}
    (h : mapFind m k = none) : k ∉ m.map Prod.fst := by
  induction m with
  | nil => simp
  | cons e rest ih =>
    obtain ⟨k', a⟩ := e
    by_cases h1 : k' = k
    · simp [mapFind, h1] at h
    · simp [mapFind, h1] at h
      simp only [List.map_cons, List.mem_cons]
      push_neg
      exact ⟨fun hh => h1 hh.symm, ih h⟩

theorem memB_iff [DecidableEq K] (k : K) (l : List K) : memB k l = true ↔ k ∈ l := by
  induction l with
  | nil => simp [memB]
  | cons k' rest ih => simp [memB, ih]

/-! Preservation of structural well-formedness along every operation. -/

theorem wf_new : WF (IndexedGraph.new : IndexedGraph K V) := by
  refine ⟨rfl, ?_, ?_⟩ <;> simp [IndexedGraph.new]

theorem wf_insert [DecidableEq K] {g : IndexedGraph K V} (h : WF g) (k : K) (v : V) :
    WF (g.insert k v) := by
  obtain ⟨hlen, hnd, hsub⟩ := h
  refine ⟨by simp [IndexedGraph.insert, hlen], ?_, ?_⟩
  · cases hfind : mapFind g.i k with
    | none =>
      rw [IndexedGraph.insert, idxAppend_of_find_none g.values.length hfind]
      have hk : k ∉ g.i.map Prod.fst := not_mem_of_mapFind_eq_none hfind
      simp only [List.map_append, List.map_cons, List.map_nil]
      exact List.Nodup.append hnd (by simp) (by
        intro a ha hb
        simp at hb
        subst hb
        exact hk ha)
    | some ps =>
      rw [IndexedGraph.insert]
      simpa [map_fst_idxAppend_of_find_some g.values.length hfind] using hnd
  · intro k2 hk2
    cases hfind : mapFind g.i k with
    | none =>
      rw [IndexedGraph.insert] at hk2 ⊢
      rw [idxAppend_of_find_none g.values.length hfind] at hk2
      simp only [List.map_append, List.map_cons, List.map_nil, List.mem_append,
        List.mem_cons, List.not_mem_nil, or_false] at hk2
      rcases hk2 with hk2 | hk2
      · exact List.mem_append_left _ (hsub k2 hk2)
      · subst hk2
        simp
    | some ps =>
      rw [IndexedGraph.insert] at hk2 ⊢
      rw [map_fst_idxAppend_of_find_some g.values.length hfind] at hk2
      exact List.mem_append_left _ (hsub k2 hk2)

theorem wf_insert_edge [DecidableEq K] {g : IndexedGraph K V} (h : WF g) (a b : K) :
    WF (g.insert_edge a b) := by
  obtain ⟨hlen, hnd, hsub⟩ := h
  exact ⟨hlen, hnd, hsub⟩

theorem wf_clear (g : IndexedGraph K V) : WF g.clear := wf_new

theorem wf_pop_first [DecidableEq K] {g g' : IndexedGraph K V} {r : Option (K × V)}
    (h : WF g) (hp : g.pop_first = some (r, g')) : WF g' := by
  obtain ⟨hlen, hnd, hsub⟩ := h
  rcases hkeys : g.keys with _ | ⟨k, kr⟩
  · rw [IndexedGraph.pop_first, hkeys] at hp
    simp at hp
    exact hp.2 ▸ ⟨hlen, hnd, hsub⟩
  · rcases hvals : g.values with _ | ⟨v, vr⟩
    · rw [IndexedGraph.pop_first, hkeys, hvals] at hp
      simp at hp
    · rw [IndexedGraph.pop_first, hkeys, hvals] at hp
      simp at hp
      obtain ⟨-, hg'⟩ := hp
      subst hg'
      have hnd' : ((mapRemove g.i k).map Prod.fst).Nodup :=
        List.Nodup.sublist (List.Sublist.map Prod.fst (mapRemove_sublist g.i k)) hnd
      refine ⟨?_, hnd', ?_⟩
      · have := hlen
        rw [hkeys, hvals] at this
        simpa using this
      · intro k2 hk2
        have hmem : k2 ∈ g.i.map Prod.fst :=
          (List.Sublist.map Prod.fst (mapRemove_sublist g.i k)).mem hk2
        have hk2keys := hsub k2 hmem
        rw [hkeys] at hk2keys
        rcases List.mem_cons.mp hk2keys with hk2k | hk2kr
        · subst hk2k
          exact absurd hk2 (not_mem_map_fst_mapRemove hnd)
        · exact hk2kr

theorem wf_pop_last [DecidableEq K] {g g' : IndexedGraph K V} {r : Option (K × V)}
    (h : WF g) (hp : g.pop_last = some (r, g')) : WF g' := by
  obtain ⟨hlen, hnd, hsub⟩ := h
  rcases hkeys : g.keys.getLast? with _ | k
  · rw [IndexedGraph.pop_last, hkeys] at hp
    simp at hp
    exact hp.2 ▸ ⟨hlen, hnd, hsub⟩
  · have hkne : g.keys ≠ [] := by
      intro hnil
      rw [hnil] at hkeys
      simp at hkeys
    have hvne : g.values ≠ [] := by
      intro hnil
      have : g.keys.length = 0 := by rw [hlen, hnil]; simp
      exact hkne (List.length_eq_zero.mp this)
    rcases hvals : g.values.getLast? with _ | v
    · exact absurd (List.getLast?_eq_none_iff.mp hvals) hvne
    · rw [IndexedGraph.pop_last, hkeys, hvals] at hp
      simp at hp
      obtain ⟨-, hg'⟩ := hp
      subst hg'
      have hnd' : ((mapRemove g.i k).map Prod.fst).Nodup :=
        List.Nodup.sublist (List.Sublist.map Prod.fst (mapRemove_sublist g.i k)) hnd
      refine ⟨by simp [hlen], hnd', ?_⟩
      intro k2 hk2
      have hmem : k2 ∈ g.i.map Prod.fst :=
        (List.Sublist.map Prod.fst (mapRemove_sublist g.i k)).mem hk2
      have hk2keys := hsub k2 hmem
      have hkdecomp : g.keys.dropLast ++ [g.keys.getLast hkne] = g.keys :=
        List.dropLast_append_getLast hkne
      have hklast : g.keys.getLast hkne = k := by
        have := List.getLast?_eq_getLast g.keys hkne
        rw [hkeys] at this
        exact (Option.some_injective _ this.symm)
      rw [← hkdecomp, hklast, List.mem_append, List.mem_singleton] at hk2keys
      rcases hk2keys with hin | hk2k
      · exact hin
      · subst hk2k
        exact absurd hk2 (not_mem_map_fst_mapRemove hnd)

theorem wf_of_reachable [DecidableEq K] {g : IndexedGraph K V} (h : Reachable g) : WF g := by
  induction h with
  | new => exact wf_new
  | insert k v _ ih => exact wf_insert ih k v
  | insert_edge a b _ ih => exact wf_insert_edge ih a b
  | clear _ => exact wf_clear _
  | pop_first _ hp ih => exact wf_pop_first ih hp
  | pop_last _ hp ih => exact wf_pop_last ih hp

theorem reachable_insertAll [DecidableEq K] {g : IndexedGraph K V} (h : Reachable g)
    (l : List (K × V)) : Reachable (insertAll g l) := by
  induction l generalizing g with
  | nil => exact h
  | cons e rest ih =>
    obtain ⟨k, v⟩ := e
    exact ih (Reachable.insert k v h)

theorem wf_len_le {g : IndexedGraph K V} (h : WF g) : g.len ≤ g.keys.length := by
  obtain ⟨-, hnd, hsub⟩ := h
  have hsp : (g.i.map Prod.fst).Subperm g.keys :=
    List.Nodup.subperm hnd (fun k hk => hsub k hk)
  have := List.Subperm.length_le hsp
  simpa [IndexedGraph.len] using this

/-! Shape of a container built by a sequence of inserts. -/

theorem insertAll_append [DecidableEq K] (g : IndexedGraph K V) (l1 l2 : List (K × V)) :
    insertAll g (l1 ++ l2) = insertAll (insertAll g l1) l2 := by
  induction l1 generalizing g with
  | nil => simp [insertAll]
  | cons e rest ih =>
    obtain ⟨k, v⟩ := e
    simp [insertAll, ih]

theorem insertAll_keys [DecidableEq K] (g : IndexedGraph K V) (l : List (K × V)) :
    (insertAll g l).keys = g.keys ++ l.map Prod.fst := by
  induction l generalizing g with
  | nil => simp [insertAll]
  | cons e rest ih =>
    obtain ⟨k, v⟩ := e
    simp [insertAll, ih, IndexedGraph.insert]

theorem insertAll_values [DecidableEq K] (g : IndexedGraph K V) (l : List (K × V)) :
    (insertAll g l).values = g.values ++ l.map Prod.snd := by
  induction l generalizing g with
  | nil => simp [insertAll]
  | cons e rest ih =>
    obtain ⟨k, v⟩ := e
    simp [insertAll, ih, IndexedGraph.insert]

theorem insertAll_edges [DecidableEq K] (g : IndexedGraph K V) (l : List (K × V)) :
    (insertAll g l).edges = g.edges := by
  induction l generalizing g with
  | nil => simp [insertAll]
  | cons e rest ih =>
    obtain ⟨k, v⟩ := e
    simp [insertAll, ih, IndexedGraph.insert]

/-! Facts about the reading loop of `get`. -/

theorem readVals_append (vs : List V) (ps qs : List Nat) :
    readVals vs (ps ++ qs) =
      (readVals vs ps).bind (fun as => (readVals vs qs).map (fun bs => as ++ bs)) := by
  induction ps with
  | nil =>
    cases h : readVals vs qs <;> simp [readVals, h]
  | cons p rest ih =>
    cases hv : vs[p]? with
    | none => simp [readVals, hv]
    | some v =>
      cases hr : readVals vs rest with
      | none => simp [readVals, hv, hr, ih]
      | some as =>
        cases hq : readVals vs qs <;>
          simp [readVals, hv, hr, hq, ih]

theorem readVals_extend {vs : List V} (ws : List V) {ps : List Nat}
    (h : ∀ p ∈ ps, p < vs.length) : readVals (vs ++ ws) ps = readVals vs ps := by
  induction ps with
  | nil => simp [readVals]
  | cons p rest ih =>
    have hp : p < vs.length := h p (List.mem_cons_self p rest)
    have hrest : ∀ q ∈ rest, q < vs.length := fun q hq => h q (List.mem_cons_of_mem p hq)
    rw [readVals, readVals, List.getElem?_append_left hp, ih hrest]

/-! Facts about the per-key value sequence of a list of inserts. -/

theorem valsFor_append [DecidableEq K] (l1 l2 : List (K × V)) (k : K) :
    valsFor (l1 ++ l2) k = valsFor l1 k ++ valsFor l2 k := by
  simp [valsFor, List.filter_append]

theorem valsFor_nil_of_not_mem [DecidableEq K] {l : List (K × V)} {k : K}
    (h : k ∉ l.map Prod.fst) : valsFor l k = [] := by
  induction l with
  | nil => simp [valsFor]
  | cons e rest ih =>
    obtain ⟨k', v⟩ := e
    simp only [List.map_cons, List.mem_cons] at h
    push_neg at h
    have hne : ¬ k' = k := fun hh => h.1 hh.symm
    simp only [valsFor, List.filter_cons, decide_eq_true_eq, hne, if_false]
    exact ih h.2

theorem valsFor_self_map [DecidableEq K] (k : K) (vs : List V) :
    valsFor (vs.map (fun v => (k, v))) k = vs := by
  induction vs with
  | nil => simp [valsFor]
  | cons v rest ih =>
    simp only [List.map_cons, valsFor, List.filter_cons, decide_eq_true_eq] at ih ⊢
    simp [ih]

/-- The index of a container built by inserts only: an absent key has no
occurrence, and a present key's position list is in bounds and reads back
exactly the values inserted under that key, in order. -/
theorem insertAll_index_spec [DecidableEq K] (l : List (K × V)) :
    (∀ k, mapFind (insertAll (IndexedGraph.new : IndexedGraph K V) l).i k = none →
      valsFor l k = []) ∧
    (∀ k ps, mapFind (insertAll (IndexedGraph.new : IndexedGraph K V) l).i k = some ps →
      (∀ p, p ∈ ps → p < l.length) ∧
        readVals (l.map Prod.snd) ps = some (valsFor l k)) := by
  induction l using List.reverseRecOn with
  | nil =>
    constructor
    · intro k _
      simp [valsFor]
    · intro k ps h
      simp [insertAll, IndexedGraph.new, mapFind] at h
  | append_singleton l e ih =>
    obtain ⟨k0, v0⟩ := e
    obtain ⟨ihn, ihs⟩ := ih
    rw [insertAll_append]
    have hvlen : (insertAll (IndexedGraph.new : IndexedGraph K V) l).values.length = l.length := by
      rw [insertAll_values]
      simp [IndexedGraph.new]
    have hifind : ∀ k, mapFind (insertAll (insertAll (IndexedGraph.new : IndexedGraph K V) l) [(k0, v0)]).i k =
        if k0 = k then
          some ((mapFind (insertAll (IndexedGraph.new : IndexedGraph K V) l).i k).getD [] ++ [l.length])
        else mapFind (insertAll (IndexedGraph.new : IndexedGraph K V) l).i k := by
      intro k
      simp only [insertAll, IndexedGraph.insert]
      rw [mapFind_idxAppend, hvlen]
    constructor
    · intro k hnone
      rw [hifind k] at hnone
      by_cases hk : k0 = k
      · simp [hk] at hnone
      · rw [if_neg hk] at hnone
        rw [valsFor_append, ihn k hnone]
        have : valsFor [(k0, v0)] k = [] := by
          simp [valsFor, List.filter_cons, hk]
        simp [this]
    · intro k ps hsome
      rw [hifind k] at hsome
      by_cases hk : k0 = k
      · subst hk
        rw [if_pos rfl] at hsome
        have hps : ps = (mapFind (insertAll (IndexedGraph.new : IndexedGraph K V) l).i k0).getD [] ++ [l.length] :=
          (Option.some_injective _ hsome).symm
        subst hps
        cases hfind : mapFind (insertAll (IndexedGraph.new : IndexedGraph K V) l).i k0 with
        | none =>
          refine ⟨?_, ?_⟩
          · intro p hp
            simp only [hfind, Option.getD_none, List.nil_append, List.mem_singleton] at hp
            subst hp
            simp
          · have hvl : valsFor l k0 = [] := ihn k0 hfind
            simp only [hfind, Option.getD_none, List.nil_append]
            have hlast : ((l.map Prod.snd) ++ ([(k0, v0)].map Prod.snd))[l.length]? = some v0 := by
              have hlm : (l.map Prod.snd).length = l.length := by simp
              rw [← hlm]
              simp only [List.map_cons, List.map_nil]
              exact List.getElem?_concat_length (l.map Prod.snd) v0
            rw [List.map_append, readVals, hlast, valsFor_append, hvl]
            simp [readVals, valsFor, List.filter_cons]
        | some qs =>
          obtain ⟨hbnd, hread⟩ := ihs k0 qs hfind
          refine ⟨?_, ?_⟩
          · intro p hp
            simp only [hfind, Option.getD_some, List.mem_append, List.mem_singleton] at hp
            rcases hp with hp | hp
            · have := hbnd p hp
              simp; omega
            · subst hp
              simp
          · simp only [hfind, Option.getD_some]
            rw [List.map_append, readVals_append]
            have hqslt : ∀ p ∈ qs, p < (l.map Prod.snd).length := by
              intro p hp
              simpa using hbnd p hp
            rw [readVals_extend ([(k0, v0)].map Prod.snd) hqslt, hread]
            have hlast : ((l.map Prod.snd) ++ ([(k0, v0)].map Prod.snd))[l.length]? = some v0 := by
              have hlm : (l.map Prod.snd).length = l.length := by simp
              rw [← hlm]
              simp only [List.map_cons, List.map_nil]
              exact List.getElem?_concat_length (l.map Prod.snd) v0
            rw [readVals, hlast]
            simp [readVals, valsFor_append, valsFor, List.filter_cons]
      · rw [if_neg hk] at hsome
        obtain ⟨hbnd, hread⟩ := ihs k ps hsome
        refine ⟨?_, ?_⟩
        · intro p hp
          have := hbnd p hp
          simp; omega
        · rw [List.map_append]
          have hpslt : ∀ p ∈ ps, p < (l.map Prod.snd).length := by
            intro p hp
            simpa using hbnd p hp
          rw [readVals_extend ([(k0, v0)].map Prod.snd) hpslt, hread]
          rw [valsFor_append]
          have : valsFor [(k0, v0)] k = [] := by
            simp [valsFor, List.filter_cons, hk]
          simp [this]

/-- `get` on a container built by inserts only returns exactly the values
inserted under the key, in insertion order (and never fails). -/
theorem get_insertAll [DecidableEq K] (l : List (K × V)) (k : K) :
    (insertAll (IndexedGraph.new : IndexedGraph K V) l).get k = some (valsFor l k) := by
  obtain ⟨ihn, ihs⟩ := insertAll_index_spec l
  rw [IndexedGraph.get]
  cases hfind : mapFind (insertAll (IndexedGraph.new : IndexedGraph K V) l).i k with
  | none =>
    rw [ihn k hfind]
  | some ps =>
    obtain ⟨-, hread⟩ := ihs k ps hfind
    rw [insertAll_values]
    simpa [IndexedGraph.new] using hread

/-! The partition property under inserts. -/

theorem concat_idxAppend_perm [DecidableEq K] (m : List (K × List Nat)) (k : K) (n : Nat) :
    List.Perm (concatAll ((idxAppend m k n).map Prod.snd))
      (concatAll (m.map Prod.snd) ++ [n]) := by
  induction m with
  | nil => simp [idxAppend, concatAll]
  | cons e rest ih =>
    obtain ⟨k', ps⟩ := e
    by_cases h1 : k' = k
    · subst h1
      simp only [idxAppend, if_pos rfl, List.map_cons, concatAll]
      rw [List.append_assoc, List.append_assoc]
      exact List.Perm.append_left ps List.perm_append_comm
    · simp only [idxAppend, if_neg h1, List.map_cons, concatAll]
      rw [List.append_assoc]
      exact List.Perm.append_left ps ih

theorem partition_insert [DecidableEq K] {g : IndexedGraph K V} (h : partitionInv g)
    (hlen : g.keys.length = g.values.length) (k : K) (v : V) :
    partitionInv (g.insert k v) := by
  rw [partitionInv, IndexedGraph.insert, allPositions]
  simp only [List.length_append, List.length_singleton]
  have h1 := concat_idxAppend_perm g.i k g.values.length
  have h2 : List.Perm (concatAll (g.i.map Prod.snd) ++ [g.values.length])
      (List.range g.keys.length ++ [g.values.length]) := List.Perm.append_right _ h
  have h3 : List.range g.keys.length ++ [g.values.length] =
      List.range (g.keys.length + 1) := by
    rw [← hlen]
    exact (List.range_succ _).symm
  have h12 := h1.trans h2
  rw [h3] at h12
  exact h12

theorem partition_insertAll [DecidableEq K] (l : List (K × V)) :
    partitionInv (insertAll (IndexedGraph.new : IndexedGraph K V) l) := by
  induction l using List.reverseRecOn with
  | nil => simp [partitionInv, allPositions, insertAll, IndexedGraph.new, concatAll]
  | append_singleton l e ih =>
    obtain ⟨k, v⟩ := e
    rw [insertAll_append]
    have hlen : (insertAll (IndexedGraph.new : IndexedGraph K V) l).keys.length =
        (insertAll (IndexedGraph.new : IndexedGraph K V) l).values.length := by
      rw [insertAll_keys, insertAll_values]
      simp [IndexedGraph.new]
    simpa [insertAll] using partition_insert ih hlen k v

/-! Behaviour of the iterator on well-formed containers. -/

theorem stepsForward_spec {g : IndexedGraph K V} (hle : g.len ≤ g.keys.length)
    (hlen : g.keys.length = g.values.length) :
    ∀ m fuel, m ≤ fuel → m ≤ g.len →
      stepsForward fuel ⟨g, m⟩ =
        some (((g.keys.zip g.values).take g.len).drop (g.len - m)) := by
  have hzlen : (g.keys.zip g.values).length = g.keys.length := by
    rw [List.length_zip, ← hlen]
    exact Nat.min_self _
  have htlen : ((g.keys.zip g.values).take g.len).length = g.len := by
    rw [List.length_take, hzlen]
    exact Nat.min_eq_left hle
  intro m
  induction m with
  | zero =>
    intro fuel _ _
    have hdrop : ((g.keys.zip g.values).take g.len).drop (g.len - 0) = [] := by
      apply List.drop_eq_nil_of_le
      rw [htlen]
      omega
    cases fuel with
    | zero => simp [stepsForward, hdrop]
    | succ f => simp [stepsForward, Iter.next, hdrop]
  | succ m ih =>
    intro fuel hmf hmlen
    cases fuel with
    | zero => omega
    | succ f =>
      have hnz : ¬ (m + 1 = 0) := by omega
      have hnu : ¬ (g.len < m + 1) := by omega
      have hidx : g.len - 1 - m = g.len - (m + 1) := by omega
      have hidxlt : g.len - (m + 1) < g.keys.length := by omega
      have hidxltv : g.len - (m + 1) < g.values.length := by omega
      rw [stepsForward]
      simp only [Iter.next, hnz, if_false, hnu, hidx, Nat.add_sub_cancel,
        List.getElem?_eq_getElem hidxlt, List.getElem?_eq_getElem hidxltv]
      rw [ih f (by omega) (by omega)]
      have hidxt : g.len - (m + 1) < ((g.keys.zip g.values).take g.len).length := by
        rw [htlen]; omega
      rw [List.drop_eq_getElem_cons hidxt]
      have hstep : g.len - (m + 1) + 1 = g.len - m := by omega
      rw [hstep]
      have hidxz : g.len - (m + 1) < (g.keys.zip g.values).length := by
        rw [hzlen]; omega
      have hget : ((g.keys.zip g.values).take g.len)[g.len - (m + 1)] =
          (g.keys[g.len - (m + 1)], g.values[g.len - (m + 1)]) := by
        rw [List.getElem_take, List.getElem_zip]
      rw [hget]
      rfl

theorem stepsBackward_spec {g : IndexedGraph K V}
    (hlen : g.keys.length = g.values.length) :
    ∀ m fuel, m ≤ fuel → m ≤ g.keys.length →
      stepsBackward fuel ⟨g, m⟩ = some (((g.keys.zip g.values).take m).reverse) := by
  have hzlen : (g.keys.zip g.values).length = g.keys.length := by
    rw [List.length_zip, ← hlen]
    exact Nat.min_self _
  intro m
  induction m with
  | zero =>
    intro fuel _ _
    cases fuel with
    | zero => simp [stepsBackward]
    | succ f => simp [stepsBackward, Iter.next_back]
  | succ m ih =>
    intro fuel hmf hmlen
    cases fuel with
    | zero => omega
    | succ f =>
      have hnz : ¬ (m + 1 = 0) := by omega
      have hidxlt : m < g.keys.length := by omega
      have hidxltv : m < g.values.length := by omega
      rw [stepsBackward]
      simp only [Iter.next_back, hnz, if_false, Nat.add_sub_cancel,
        List.getElem?_eq_getElem hidxlt, List.getElem?_eq_getElem hidxltv]
      rw [ih f (by omega) (by omega)]
      have hmz : m < (g.keys.zip g.values).length := by rw [hzlen]; omega
      rw [List.take_succ, List.getElem?_eq_getElem hmz]
      simp only [Option.toList_some, List.reverse_append, List.reverse_singleton,
        List.singleton_append, List.getElem_zip]
      rfl

/-! Draining the container by repeated pops. -/

theorem graph_eta (g : IndexedGraph K V) :
    g = ⟨g.keys, g.values, g.edges, g.i⟩ := rfl

theorem wf_empty_graph {g : IndexedGraph K V} (h : WF g) (hk : g.keys = []) :
    g = ⟨[], [], g.edges, []⟩ := by
  obtain ⟨hlen, -, hsub⟩ := h
  have hv : g.values = [] := by
    have : g.values.length = 0 := by rw [← hlen, hk]; rfl
    exact List.length_eq_zero.mp this
  have hi : g.i = [] := by
    cases hieq : g.i with
    | nil => rfl
    | cons e rest =>
      have : e.1 ∈ g.i.map Prod.fst := by
        rw [hieq]
        simp
      have := hsub e.1 this
      rw [hk] at this
      simp at this
  rw [graph_eta g, hk, hv, hi]

theorem popFirstN_drain [DecidableEq K] :
    ∀ (ks : List K) (g : IndexedGraph K V), g.keys = ks → WF g →
      popFirstN ks.length g = some (ks.zip g.values, ⟨[], [], g.edges, []⟩) := by
  intro ks
  induction ks with
  | nil =>
    intro g hk hwf
    have hg := wf_empty_graph hwf hk
    simp only [List.length_nil, popFirstN]
    rw [hg]
    simp
  | cons k kr ih =>
    intro g hk hwf
    have hlen := hwf.1
    rcases hv : g.values with _ | ⟨v, vr⟩
    · rw [hk, hv] at hlen
      simp at hlen
    · have hpop : g.pop_first = some (some (k, v), ⟨kr, vr, g.edges, mapRemove g.i k⟩) := by
        rw [IndexedGraph.pop_first, hk, hv]
      have hwf' : WF (⟨kr, vr, g.edges, mapRemove g.i k⟩ : IndexedGraph K V) :=
        wf_pop_first hwf hpop
      have hrec := ih ⟨kr, vr, g.edges, mapRemove g.i k⟩ rfl hwf'
      rw [List.length_cons]
      simp only [popFirstN, hpop, hrec]
      simp

theorem popLastN_drain [DecidableEq K] :
    ∀ (ks : List K) (g : IndexedGraph K V), g.keys = ks → WF g →
      popLastN ks.length g = some ((ks.zip g.values).reverse, ⟨[], [], g.edges, []⟩) := by
  intro ks
  induction ks using List.reverseRecOn with
  | nil =>
    intro g hk hwf
    have hg := wf_empty_graph hwf hk
    simp only [List.length_nil, popLastN]
    rw [hg]
    simp
  | append_singleton kr k ih =>
    intro g hk hwf
    have hlen := hwf.1
    rcases List.eq_nil_or_concat g.values with hnil | ⟨wr, w, hvdecomp⟩
    · rw [hk, hnil] at hlen
      simp at hlen
    · rw [List.concat_eq_append] at hvdecomp
      have hwrlen : kr.length = wr.length := by
        rw [hk, hvdecomp] at hlen
        simp at hlen
        omega
      have hpop : g.pop_last = some (some (k, w), ⟨kr, wr, g.edges, mapRemove g.i k⟩) := by
        rw [IndexedGraph.pop_last]
        have h1 : g.keys.getLast? = some k := by rw [hk]; exact List.getLast?_concat kr
        have h2 : g.values.getLast? = some w := by rw [hvdecomp]; exact List.getLast?_concat wr
        have h3 : g.keys.dropLast = kr := by rw [hk]; exact List.dropLast_concat
        have h4 : g.values.dropLast = wr := by rw [hvdecomp]; exact List.dropLast_concat
        rw [h1, h2, h3, h4]
      have hwf' : WF (⟨kr, wr, g.edges, mapRemove g.i k⟩ : IndexedGraph K V) :=
        wf_pop_last hwf hpop
      have hrec := ih ⟨kr, wr, g.edges, mapRemove g.i k⟩ rfl hwf'
      have hkl : (kr ++ [k]).length = kr.length + 1 := by simp
      rw [hkl]
      simp only [popLastN, hpop, hrec]
      have hzip : (kr ++ [k]).zip g.values = kr.zip wr ++ [(k, w)] := by
        rw [hvdecomp]
        exact List.zip_append hwrlen
      rw [hzip]
      simp

/-- Zipping the projections of a pair list recovers the list. -/
theorem zip_fst_snd (l : List (K × V)) :
    (l.map Prod.fst).zip (l.map Prod.snd) = l := by
  induction l with
  | nil => rfl
  | cons e rest ih =>
    obtain ⟨k, v⟩ := e
    simp [ih]

/-- C1 (corrected, counterexample): the claim says `pop_first` removes only
position 0 from the popped key's index list, so that after `insert(1,"a")`,
`insert(1,"b")`, `pop_first()` a `get(&1)` returns `["b"]`.  In the code
`pop_first` calls `self.i.remove(&key)`, deleting the key's whole index
entry: `get(&1)` returns `[]`, not `["b"]`. -/
theorem c1_counterexample :
    (((IndexedGraph.new : IndexedGraph Nat String).insert 1 "a").insert 1 "b").pop_first =
        some (some (1, "a"), ⟨[1], ["b"], [], []⟩) ∧
      (⟨[1], ["b"], [], []⟩ : IndexedGraph Nat String).get 1 = some [] ∧
      some ([] : List String) ≠ some ["b"] :=
  ⟨rfl, rfl, by decide⟩

/-- C1 (amended): on a nonempty container whose index has pairwise-distinct
keys, `pop_first` (resp. `pop_last`) removes and returns the entry at
position 0 (resp. N-1) and removes the popped key's ENTIRE index entry —
all of its positions, not just the popped one — so the key is absent from
the index afterwards even when other occurrences of it remain. -/
theorem c1_thm [DecidableEq K] (g h : IndexedGraph K V) (k kL : K) (v vL : V)
    (kr ki : List K) (vr vi : List V)
    (hgnd : (g.i.map Prod.fst).Nodup) (hgk : g.keys = k :: kr) (hgv : g.values = v :: vr)
    (hhnd : (h.i.map Prod.fst).Nodup) (hhk : h.keys = ki ++ [kL]) (hhv : h.values = vi ++ [vL]) :
    g.pop_first = some (some (k, v), ⟨kr, vr, g.edges, mapRemove g.i k⟩) ∧
      mapFind (mapRemove g.i k) k = none ∧
      h.pop_last = some (some (kL, vL), ⟨ki, vi, h.edges, mapRemove h.i kL⟩) ∧
      mapFind (mapRemove h.i kL) kL = none := by
  refine ⟨?_, mapFind_mapRemove_self hgnd, ?_, mapFind_mapRemove_self hhnd⟩
  · rw [IndexedGraph.pop_first, hgk, hgv]
  · rw [IndexedGraph.pop_last]
    have h1 : h.keys.getLast? = some kL := by rw [hhk]; exact List.getLast?_concat ki
    have h2 : h.values.getLast? = some vL := by rw [hhv]; exact List.getLast?_concat vi
    have h3 : h.keys.dropLast = ki := by rw [hhk]; exact List.dropLast_concat
    have h4 : h.values.dropLast = vi := by rw [hhv]; exact List.dropLast_concat
    rw [h1, h2, h3, h4]

/-- Witness for C1 at the container holding `(1,"a")` and `(1,"b")`. -/
theorem c1_witness :
    (⟨[1, 1], ["a", "b"], [], [(1, [0, 1])]⟩ : IndexedGraph Nat String).pop_first =
        some (some (1, "a"), ⟨[1], ["b"], [], mapRemove [((1 : Nat), [0, 1])] 1⟩) ∧
      mapFind (mapRemove [((1 : Nat), [0, 1])] 1) 1 = none ∧
      (⟨[1, 1], ["a", "b"], [], [(1, [0, 1])]⟩ : IndexedGraph Nat String).pop_last =
        some (some (1, "b"), ⟨[1], ["a"], [], mapRemove [((1 : Nat), [0, 1])] 1⟩) ∧
      mapFind (mapRemove [((1 : Nat), [0, 1])] 1) 1 = none :=
  c1_thm ⟨[1, 1], ["a", "b"], [], [(1, [0, 1])]⟩ ⟨[1, 1], ["a", "b"], [], [(1, [0, 1])]⟩
    1 1 "a" "b" [1] [1] ["b"] ["a"] (by decide) rfl rfl (by decide) rfl rfl

/-- C2 (corrected, counterexample): the partition invariant is claimed for
every state reachable by inserts and pops, but one `pop_first` after
`insert(1,"a")`, `insert(1,"b")` leaves one entry and an empty index, whose
concatenated positions are not a permutation of `0..0`. -/
theorem c2_counterexample :
    (((IndexedGraph.new : IndexedGraph Nat String).insert 1 "a").insert 1 "b").pop_first =
        some (some (1, "a"), ⟨[1], ["b"], [], []⟩) ∧
      ¬ partitionInv (⟨[1], ["b"], [], []⟩ : IndexedGraph Nat String) := by
  refine ⟨rfl, ?_⟩
  intro hp
  unfold partitionInv at hp
  have hlen := hp.length_eq
  simp [allPositions, concatAll] at hlen

/-- C2 (amended): for every container built from the empty container by
inserts only, the concatenation of all position lists stored in the index is
a permutation of `0 .. N-1`, `N` the current number of entries. -/
theorem c2_thm [DecidableEq K] (l : List (K × V)) :
    partitionInv (insertAll (IndexedGraph.new : IndexedGraph K V) l) :=
  partition_insertAll l

/-- C3 (corrected, counterexample): after `insert(1,"a")`, `insert(2,"b")`,
`pop_first()` the surviving key 2 still has stale position 1 in the index
while `values` has length 1, so `get(&2)` hits an out-of-bounds read (a
panic, modelled as `none`) instead of returning a sequence. -/
theorem c3_counterexample :
    (((IndexedGraph.new : IndexedGraph Nat String).insert 1 "a").insert 2 "b").pop_first =
        some (some (1, "a"), ⟨[2], ["b"], [], [(2, [1])]⟩) ∧
      (⟨[2], ["b"], [], [(2, [1])]⟩ : IndexedGraph Nat String).get 2 = none :=
  ⟨rfl, rfl⟩

/-- C3 (amended): `get` on a key absent from the index returns the empty
sequence — never an error — in every container state; and on every container
built by inserts only (no pops), every position `get` reads is in bounds, so
`get` always returns a sequence. -/
theorem c3_thm [DecidableEq K] (g : IndexedGraph K V) (k : K) (l : List (K × V)) (k2 : K)
    (habs : mapFind g.i k = none) :
    g.get k = some [] ∧
      ((insertAll (IndexedGraph.new : IndexedGraph K V) l).get k2).isSome = true := by
  constructor
  · rw [IndexedGraph.get, habs]
  · rw [get_insertAll]
    rfl

/-- Witness for C3: a key absent from a (stale) index, and an in-bounds
lookup on an insert-only container. -/
theorem c3_witness :
    (⟨[2], ["b"], [], [(2, [1])]⟩ : IndexedGraph Nat String).get 1 = some [] ∧
      ((insertAll (IndexedGraph.new : IndexedGraph Nat String) [(1, "a"), (2, "b")]).get 2).isSome =
        true :=
  c3_thm ⟨[2], ["b"], [], [(2, [1])]⟩ 1 [(1, "a"), (2, "b")] 2 rfl

/-- C4 (corrected, counterexample): the iterator's counter starts at
`len()`, the number of DISTINCT keys, so after `insert(1,"a")`,
`insert(1,"b")` forward collection yields one entry, not the two surviving
entries claimed. -/
theorem c4_counterexample :
    collectForward (((IndexedGraph.new : IndexedGraph Nat String).insert 1 "a").insert 1 "b").iter =
        some [(1, "a")] ∧
      (((IndexedGraph.new : IndexedGraph Nat String).insert 1 "a").insert 1 "b").keys.zip
          (((IndexedGraph.new : IndexedGraph Nat String).insert 1 "a").insert 1 "b").values =
        [(1, "a"), (1, "b")] ∧
      some [((1 : Nat), "a")] ≠ some [(1, "a"), (1, "b")] :=
  ⟨rfl, rfl, by decide⟩

/-- C4 (amended): on every reachable container, forward collection of
`iter()` yields exactly the first `len()` entries (in insertion order),
where `len()` is the distinct-key count, and backward collection yields
exactly the reverse of that sequence; the full entry sequence is obtained
exactly when `len()` equals the entry count. -/
theorem c4_thm [DecidableEq K] (g : IndexedGraph K V) (hr : Reachable g) :
    collectForward g.iter = some ((g.keys.zip g.values).take g.len) ∧
      collectBackward g.iter = some (((g.keys.zip g.values).take g.len).reverse) := by
  have hwf := wf_of_reachable hr
  have hle := wf_len_le hwf
  have hlen := hwf.1
  constructor
  · have hfwd := stepsForward_spec hle hlen g.len (g.len + 1) (by omega) (le_refl _)
    have hz : g.len - g.len = 0 := by omega
    rw [hz, List.drop_zero] at hfwd
    exact hfwd
  · exact stepsBackward_spec hlen g.len (g.len + 1) (by omega) hle

/-- Witness for C4 at the container holding `(1,"a")` and `(1,"b")`. -/
theorem c4_witness :
    collectForward (((IndexedGraph.new : IndexedGraph Nat String).insert 1 "a").insert 1 "b").iter =
        some (((((IndexedGraph.new : IndexedGraph Nat String).insert 1 "a").insert 1 "b").keys.zip
            (((IndexedGraph.new : IndexedGraph Nat String).insert 1 "a").insert 1 "b").values).take
          (((IndexedGraph.new : IndexedGraph Nat String).insert 1 "a").insert 1 "b").len) ∧
      collectBackward
          (((IndexedGraph.new : IndexedGraph Nat String).insert 1 "a").insert 1 "b").iter =
        some ((((((IndexedGraph.new : IndexedGraph Nat String).insert 1 "a").insert 1 "b").keys.zip
              (((IndexedGraph.new : IndexedGraph Nat String).insert 1 "a").insert 1 "b").values).take
            (((IndexedGraph.new : IndexedGraph Nat String).insert 1 "a").insert 1 "b").len).reverse) :=
  c4_thm (((IndexedGraph.new : IndexedGraph Nat String).insert 1 "a").insert 1 "b")
    (Reachable.insert 1 "b" (Reachable.insert 1 "a" Reachable.new))

/-- C5 (corrected, counterexample): if the starting insert-only state
already contains the key — here one prior `insert(1,"x")` — then inserting
the key `m = 1` more times and calling `get` returns the prior values too
(2 values), not exactly `m`. -/
theorem c5_counterexample :
    (((IndexedGraph.new : IndexedGraph Nat String).insert 1 "x").insert 1 "a").get 1 =
        some ["x", "a"] ∧
      some ["x", "a"] ≠ some ["a"] :=
  ⟨rfl, by decide⟩

/-- C5 (amended): starting from any insert-only state in which the key does
not occur, inserting it `m` times with values `v1..vm` and then calling
`get` with it returns exactly those `m` values, in insertion order. -/
theorem c5_thm [DecidableEq K] (l : List (K × V)) (k : K) (vs : List V)
    (hnotin : k ∉ l.map Prod.fst) :
    (insertAll (IndexedGraph.new : IndexedGraph K V) (l ++ vs.map (fun v => (k, v)))).get k =
      some vs := by
  rw [get_insertAll, valsFor_append, valsFor_nil_of_not_mem hnotin, valsFor_self_map,
    List.nil_append]

/-- Witness for C5: key 1 absent from the prior state `[(2,"x")]`, then two
inserts under key 1. -/
theorem c5_witness :
    (insertAll (IndexedGraph.new : IndexedGraph Nat String)
        ([(2, "x")] ++ (["a", "b"].map (fun v => (1, v))))).get 1 = some ["a", "b"] :=
  c5_thm [(2, "x")] 1 ["a", "b"] (by decide)

/-- C6 (confirmed): on every reachable container `len()` equals the number
of distinct keys recorded in the index (not the entry count), and
`is_empty()` returns true exactly when `len()` is zero. -/
theorem c6_thm [DecidableEq K] (g : IndexedGraph K V) (hr : Reachable g) :
    g.len = (g.i.map Prod.fst).dedup.length ∧ (g.is_empty = true ↔ g.len = 0) := by
  have hnd := (wf_of_reachable hr).2.1
  constructor
  · rw [List.Nodup.dedup hnd, List.length_map]
    rfl
  · rw [IndexedGraph.is_empty, IndexedGraph.len]
    simp

/-- Witness for C6 at a one-entry container. -/
theorem c6_witness :
    ((IndexedGraph.new : IndexedGraph Nat String).insert 1 "a").len =
        ((((IndexedGraph.new : IndexedGraph Nat String).insert 1 "a").i.map
            Prod.fst).dedup).length ∧
      (((IndexedGraph.new : IndexedGraph Nat String).insert 1 "a").is_empty = true ↔
        ((IndexedGraph.new : IndexedGraph Nat String).insert 1 "a").len = 0) :=
  c6_thm ((IndexedGraph.new : IndexedGraph Nat String).insert 1 "a")
    (Reachable.insert 1 "a" Reachable.new)

/-- C7 (confirmed): on every container state, `insert(key, value)` succeeds,
appends the entry at position N (the pre-insertion entry count, recorded in
the index), grows both sequences by one, and returns `Some` of the
just-inserted value. -/
theorem c7_thm [DecidableEq K] (g : IndexedGraph K V) (k : K) (v : V) :
    g.insert_ret k v = some v ∧
      (g.insert k v).keys[g.keys.length]? = some k ∧
      (g.insert k v).values[g.values.length]? = some v ∧
      (g.insert k v).keys.length = g.keys.length + 1 ∧
      (g.insert k v).values.length = g.values.length + 1 ∧
      mapFind (g.insert k v).i k = some ((mapFind g.i k).getD [] ++ [g.values.length]) := by
  refine ⟨?_, ?_, ?_, ?_, ?_, ?_⟩
  · simp only [IndexedGraph.insert_ret, IndexedGraph.insert]
    exact List.getLast?_concat _
  · simp only [IndexedGraph.insert]
    exact List.getElem?_concat_length _ _
  · simp only [IndexedGraph.insert]
    exact List.getElem?_concat_length _ _
  · simp [IndexedGraph.insert]
  · simp [IndexedGraph.insert]
  · simp only [IndexedGraph.insert]
    rw [mapFind_idxAppend]
    exact if_pos rfl

/-- C8 (confirmed): draining a container built by inserts with `pop_first`
returns the entries in insertion order and ends in the empty container
(`is_empty` true, further pops return `None`); draining with `pop_last`
returns them in reverse insertion order. -/
theorem c8_thm [DecidableEq K] (l : List (K × V)) :
    popFirstN l.length (insertAll (IndexedGraph.new : IndexedGraph K V) l) =
        some (l, IndexedGraph.new) ∧
      popLastN l.length (insertAll (IndexedGraph.new : IndexedGraph K V) l) =
        some (l.reverse, IndexedGraph.new) ∧
      (IndexedGraph.new : IndexedGraph K V).is_empty = true ∧
      (IndexedGraph.new : IndexedGraph K V).pop_first = some (none, IndexedGraph.new) ∧
      (IndexedGraph.new : IndexedGraph K V).pop_last = some (none, IndexedGraph.new) := by
  have hg : Reachable (insertAll (IndexedGraph.new : IndexedGraph K V) l) :=
    reachable_insertAll Reachable.new l
  have hwf := wf_of_reachable hg
  have hk : (insertAll (IndexedGraph.new : IndexedGraph K V) l).keys = l.map Prod.fst := by
    rw [insertAll_keys]
    rfl
  have hv : (insertAll (IndexedGraph.new : IndexedGraph K V) l).values = l.map Prod.snd := by
    rw [insertAll_values]
    rfl
  have he : (insertAll (IndexedGraph.new : IndexedGraph K V) l).edges = [] := by
    rw [insertAll_edges]
    rfl
  refine ⟨?_, ?_, rfl, rfl, rfl⟩
  · have h1 := popFirstN_drain (insertAll (IndexedGraph.new : IndexedGraph K V) l).keys
      (insertAll (IndexedGraph.new : IndexedGraph K V) l) rfl hwf
    rw [hk, hv, he, zip_fst_snd, List.length_map] at h1
    exact h1
  · have h2 := popLastN_drain (insertAll (IndexedGraph.new : IndexedGraph K V) l).keys
      (insertAll (IndexedGraph.new : IndexedGraph K V) l) rfl hwf
    rw [hk, hv, he, zip_fst_snd, List.length_map] at h2
    exact h2

/-- C9 (confirmed): on every reachable container the `keys` and `values`
sequences have equal length, and `new`, `insert`, `insert_edge`, `clear`,
`pop_first` and `pop_last` all preserve this equality. -/
theorem c9_thm [DecidableEq K] (g : IndexedGraph K V) (k a b : K) (v : V)
    (r1 r2 : Option (K × V)) (g1 g2 : IndexedGraph K V)
    (hr : Reachable g) (hp1 : g.pop_first = some (r1, g1)) (hp2 : g.pop_last = some (r2, g2)) :
    (IndexedGraph.new : IndexedGraph K V).keys.length =
        (IndexedGraph.new : IndexedGraph K V).values.length ∧
      g.keys.length = g.values.length ∧
      (g.insert k v).keys.length = (g.insert k v).values.length ∧
      (g.insert_edge a b).keys.length = (g.insert_edge a b).values.length ∧
      g.clear.keys.length = g.clear.values.length ∧
      g1.keys.length = g1.values.length ∧
      g2.keys.length = g2.values.length := by
  have hwf := wf_of_reachable hr
  exact ⟨rfl, hwf.1, (wf_insert hwf k v).1, (wf_insert_edge hwf a b).1, (wf_clear g).1,
    (wf_pop_first hwf hp1).1, (wf_pop_last hwf hp2).1⟩

/-- Witness for C9 at a one-entry container. -/
theorem c9_witness :
    (IndexedGraph.new : IndexedGraph Nat String).keys.length =
        (IndexedGraph.new : IndexedGraph Nat String).values.length ∧
      ((IndexedGraph.new : IndexedGraph Nat String).insert 1 "a").keys.length =
        ((IndexedGraph.new : IndexedGraph Nat String).insert 1 "a").values.length ∧
      (((IndexedGraph.new : IndexedGraph Nat String).insert 1 "a").insert 2 "z").keys.length =
        (((IndexedGraph.new : IndexedGraph Nat String).insert 1 "a").insert 2 "z").values.length ∧
      (((IndexedGraph.new : IndexedGraph Nat String).insert 1 "a").insert_edge 3 4).keys.length =
        (((IndexedGraph.new : IndexedGraph Nat String).insert 1 "a").insert_edge 3 4).values.length ∧
      ((IndexedGraph.new : IndexedGraph Nat String).insert 1 "a").clear.keys.length =
        ((IndexedGraph.new : IndexedGraph Nat String).insert 1 "a").clear.values.length ∧
      (⟨[], [], [], []⟩ : IndexedGraph Nat String).keys.length =
        (⟨[], [], [], []⟩ : IndexedGraph Nat String).values.length ∧
      (⟨[], [], [], []⟩ : IndexedGraph Nat String).keys.length =
        (⟨[], [], [], []⟩ : IndexedGraph Nat String).values.length :=
  c9_thm ((IndexedGraph.new : IndexedGraph Nat String).insert 1 "a") 2 3 4 "z"
    (some (1, "a")) (some (1, "a")) ⟨[], [], [], []⟩ ⟨[], [], [], []⟩
    (Reachable.insert 1 "a" Reachable.new) rfl rfl

/-- C10 (confirmed): on every reachable container the number of index
entries never exceeds the length of `keys` (every indexed key occurs in
`keys`), so the iterator, whose counter starts from `len()`, indexes only in
bounds and yields exactly `len()` pairs without failure. -/
theorem c10_thm [DecidableEq K] (g : IndexedGraph K V) (hr : Reachable g) :
    g.len ≤ g.keys.length ∧
      g.i.all (fun e => memB e.1 g.keys) = true ∧
      (collectForward g.iter).map List.length = some g.len := by
  have hwf := wf_of_reachable hr
  have hle := wf_len_le hwf
  have hlen := hwf.1
  refine ⟨hle, ?_, ?_⟩
  · rw [List.all_eq_true]
    intro e he
    rw [memB_iff]
    exact hwf.2.2 e.1 (List.mem_map_of_mem Prod.fst he)
  · have hfwd := stepsForward_spec hle hlen g.len (g.len + 1) (by omega) (le_refl _)
    have hz : g.len - g.len = 0 := by omega
    rw [hz, List.drop_zero] at hfwd
    have hcf : collectForward g.iter = some ((g.keys.zip g.values).take g.len) := hfwd
    have hxlen : ((g.keys.zip g.values).take g.len).length = g.len := by
      rw [List.length_take, List.length_zip, ← hlen, Nat.min_self]
      exact Nat.min_eq_left hle
    rw [hcf]
    simp [hxlen]

/-- Witness for C10 at the container left by one pop after two inserts of
the same key. -/
theorem c10_witness :
    (⟨[1], ["b"], [], []⟩ : IndexedGraph Nat String).len ≤
        (⟨[1], ["b"], [], []⟩ : IndexedGraph Nat String).keys.length ∧
      (⟨[1], ["b"], [], []⟩ : IndexedGraph Nat String).i.all
          (fun e => memB e.1 (⟨[1], ["b"], [], []⟩ : IndexedGraph Nat String).keys) = true ∧
      (collectForward (⟨[1], ["b"], [], []⟩ : IndexedGraph Nat String).iter).map List.length =
        some (⟨[1], ["b"], [], []⟩ : IndexedGraph Nat String).len :=
  c10_thm ⟨[1], ["b"], [], []⟩
    (Reachable.pop_first (Reachable.insert 1 "b" (Reachable.insert 1 "a" Reachable.new)) rfl)
